import Mathlib

set_option maxHeartbeats 1000000

/-!
Verification of the clipwhisper core (src/src/lib.rs): the timestamp window
arithmetic (`TargetTimeStamp`), the templated command-chunk rendering
(`CommandChunk::format_chunk`), and the argument-list assembly
(`ClipCommand::render_arguments`).
-/

namespace Clipwhisper

/-- Maximum value of an unsigned 32-bit integer, `u32::max_value()` in the source. -/
def U32_MAX : Nat := 4294967295

/-- Embeds `TargetTimeStamp` (src/src/lib.rs lines 76-81): start and end clip
times in seconds, `u32` in the source, modelled as `Nat` (theorems carry the
32-bit range hypotheses where they matter). -/
structure TargetTimeStamp where
  start : Nat
  «end» : Nat
deriving DecidableEq

/-- Embeds `TargetTimeStamp::new` (src/src/lib.rs lines 85-97): `start = offset`;
`end = offset + duration` via `overflowing_add`, and on overflow (sum not below
2^32) `end` is set to `u32::max_value()`. The operation is total: no error is
returned to the caller. -/
def TargetTimeStamp.new (offset duration : Nat) : TargetTimeStamp :=
  { start := offset
    «end» := if 4294967296 ≤ offset + duration then U32_MAX else offset + duration }

/-- Embeds the Rust numeric cast `max_length as u32` applied to the probed `f32`
media length (src/src/lib.rs line 104). The `as` cast saturates: it truncates
toward zero and clamps into `[0, U32_MAX]` (negative values go to 0). Finite
`f32` values are exactly representable as rationals, so the cast is modelled on
`ℚ`; for a nonnegative rational `q.num.toNat / q.den` is exactly truncation
toward zero, and for a negative one it is 0. -/
def f32_as_u32 (q : ℚ) : Nat := min (q.num.toNat / q.den) U32_MAX

/-- Embeds `TargetTimeStamp::bind_values` (src/src/lib.rs lines 100-138): the
media length is truncated to a `u32`, then `start` and `end` are independently
replaced by that bound whenever they exceed it. -/
def TargetTimeStamp.bind_values (t : TargetTimeStamp) (max_length : ℚ) : TargetTimeStamp :=
  { start := if f32_as_u32 max_length < t.start then f32_as_u32 max_length else t.start
    «end» := if f32_as_u32 max_length < t.«end» then f32_as_u32 max_length else t.«end» }

/-- Opening brace character. -/
def lbrace : Char := Char.ofNat 123

/-- Closing brace character. -/
def rbrace : Char := Char.ofNat 125

/-- The placeholder name `start`, as a character list. -/
def startName : List Char := ['s', 't', 'a', 'r', 't']

/-- The placeholder name `end`, as a character list. -/
def endName : List Char := ['e', 'n', 'd']

/-- The literal placeholder pattern for `start`, braces included. -/
def startPat : List Char := lbrace :: (startName ++ [rbrace])

/-- The literal placeholder pattern for `end`, braces included. -/
def endPat : List Char := lbrace :: (endName ++ [rbrace])

/-- Splits a character list at the first closing brace: returns the characters
before it and the characters after it, or `none` when no closing brace occurs. -/
def splitOnBrace : List Char → Option (List Char × List Char)
  | [] => none
  | c :: rest =>
      if c = rbrace then some ([], rest)
      else (splitOnBrace rest).map (fun p => (c :: p.1, p.2))

/-- Association-list lookup for the placeholder table. -/
def lookupFmt (n : List Char) : List (List Char × List Char) → Option (List Char)
  | [] => none
  | (k, v) :: rest => if n = k then some v else lookupFmt n rest

/-- Modelled from the spec: the external `interpolator::format` function called by
`CommandChunk::format_chunk` (src/src/lib.rs line 163) is a crate dependency whose
source is not part of this repository. Per the spec, rendering substitutes every
occurrence of a `\x7bname\x7d` placeholder with the table entry for `name` and fails
exactly when a referenced placeholder name cannot be resolved in the table; an
opening brace with no closing brace after it starts no placeholder reference.
The `fuel` argument bounds the recursion by the remaining input length. -/
def interpGoF (fmts : List (List Char × List Char)) : Nat → List Char → Option (List Char)
  | _, [] => some []
  | 0, _ :: _ => none
  | fuel + 1, c :: rest =>
      if c = lbrace then
        match splitOnBrace rest with
        | some (n, r) =>
            match lookupFmt n fmts with
            | some v => (interpGoF fmts fuel r).map (fun out => v ++ out)
            | none => none
        | none => (interpGoF fmts fuel rest).map (fun out => c :: out)
      else (interpGoF fmts fuel rest).map (fun out => c :: out)

/-- Runs the interpolation scanner with enough fuel for the whole input. -/
def interpolate (fmts : List (List Char × List Char)) (l : List Char) : Option (List Char) :=
  interpGoF fmts l.length l

/-- Independent rendering specification, following the spec text: replace every
(leftmost-first) occurrence of the literal pattern `\x7bstart\x7d` by `s` and of
`\x7bend\x7d` by `e`, leaving all other characters unchanged. -/
def specSubstF (s e : List Char) : Nat → List Char → List Char
  | _, [] => []
  | 0, l => l
  | fuel + 1, c :: rest =>
      if startPat.isPrefixOf (c :: rest) then
        s ++ specSubstF s e fuel ((c :: rest).drop startPat.length)
      else if endPat.isPrefixOf (c :: rest) then
        e ++ specSubstF s e fuel ((c :: rest).drop endPat.length)
      else c :: specSubstF s e fuel rest

/-- Runs the substitution specification with enough fuel for the whole input. -/
def specSubst (s e l : List Char) : List Char := specSubstF s e l.length l

/-- The placeholder names referenced by a template: each opening brace that is
followed by a closing brace references the characters between the two braces. -/
def refNamesF : Nat → List Char → List (List Char)
  | _, [] => []
  | 0, _ :: _ => []
  | fuel + 1, c :: rest =>
      if c = lbrace then
        match splitOnBrace rest with
        | some (n, r) => n :: refNamesF fuel r
        | none => refNamesF fuel rest
      else refNamesF fuel rest

/-- Runs the reference scanner with enough fuel for the whole input. -/
def refNames (l : List Char) : List (List Char) := refNamesF l.length l

/-- Embeds `CommandChunk` (src/src/lib.rs lines 142-148): a flag/value command
segment. -/
structure CommandChunk where
  flag : String
  value : String
deriving DecidableEq

/-- The placeholder table built inside `CommandChunk::format_chunk`
(src/src/lib.rs lines 154-159): `start` and `end` mapped to the decimal
`Display` rendering of the fields of the window. -/
def TargetTimeStamp.formats (t : TargetTimeStamp) : List (List Char × List Char) :=
  [(startName, (Nat.repr t.start).toList), (endName, (Nat.repr t.«end»).toList)]

/-- Embeds `CommandChunk::format_chunk` (src/src/lib.rs lines 152-165): the flag
is copied unchanged and the value is interpolated against the window; the
source panics via `expect` when interpolation fails, modelled as `none`. -/
def CommandChunk.format_chunk (chunk : CommandChunk) (t : TargetTimeStamp) :
    Option CommandChunk :=
  (interpolate t.formats chunk.value.toList).map (fun out => ⟨chunk.flag, ⟨out⟩⟩)

/-- Rendering as the spec describes it: flag unchanged, every occurrence of
`\x7bstart\x7d` and `\x7bend\x7d` in the value replaced by the fields of the window
as plain decimal integers. -/
def specSubstStr (chunk : CommandChunk) (t : TargetTimeStamp) : CommandChunk :=
  ⟨chunk.flag,
   ⟨specSubst ((Nat.repr t.start).toList) ((Nat.repr t.«end»).toList) chunk.value.toList⟩⟩

/-- Embeds `ClipCommand` (src/src/lib.rs lines 12-25): the executable name, the
input, video-filter, audio-filter and output chunks, and the time window. -/
structure ClipCommand where
  executable : String
  input : CommandChunk
  video_filter : CommandChunk
  audio_filter : CommandChunk
  output : CommandChunk
  target : TargetTimeStamp
deriving DecidableEq

/-- Embeds `Args` (src/src/args.rs lines 10-31): the four CLI options consumed
by the core; `duration` and `offset` are `u32` in the source. -/
structure Args where
  input : String
  output : String
  duration : Nat
  offset : Nat

/-- Embeds `impl From<Args> for ClipCommand` (src/src/lib.rs lines 27-50): fixed
executable, flags and filter templates; input path, output path and the window
built from offset and duration come from the arguments. -/
def ClipCommand.fromArgs (args : Args) : ClipCommand :=
  { executable := "ffmpeg"
    input := ⟨"-i", args.input⟩
    video_filter :=
      ⟨"-vf", "select=\x27between(t,\x7bstart\x7d,\x7bend\x7d)\x27,setpts=N/FRAME_RATE/TB"⟩
    audio_filter :=
      ⟨"-af", "aselect=\x27between(t,\x7bstart\x7d,\x7bend\x7d)\x27,asetpts=N/SR/TB"⟩
    output := ⟨"-o", args.output⟩
    target := TargetTimeStamp.new args.offset args.duration }

/-- Embeds `ClipCommand::render_arguments` (src/src/lib.rs lines 54-71): input
flag and path, rendered video filter, rendered audio filter, the fixed `-y`
overwrite flag, and the bare output path (its `-o` flag is dropped); the
panic of the source (via expect) on a failed render is modelled as `none`. -/
def ClipCommand.render_arguments (c : ClipCommand) : Option (List String) :=
  match c.video_filter.format_chunk c.target, c.audio_filter.format_chunk c.target with
  | some vf, some af =>
      some [c.input.flag, c.input.value, vf.flag, vf.value, af.flag, af.value, "-y",
        c.output.value]
  | _, _ => none

/-- A successful split decomposes the input around its first closing brace, and
the part before the brace contains no closing brace. -/
theorem splitOnBrace_eq_some {l n r : List Char} (h : splitOnBrace l = some (n, r)) :
    l = n ++ rbrace :: r ∧ rbrace ∉ n := by
  induction l generalizing n r with
  | nil => simp [splitOnBrace] at h
  | cons c rest ih =>
      by_cases hc : c = rbrace
      · subst hc
        simp [splitOnBrace] at h
        obtain ⟨hn, hr⟩ := h
        subst hn
        subst hr
        simp
      · simp [splitOnBrace, hc] at h
        obtain ⟨a, hsp, hn⟩ := h
        subst hn
        obtain ⟨h1, h2⟩ := ih hsp
        subst h1
        refine ⟨by simp, ?_⟩
        simp only [List.mem_cons, not_or]
        exact ⟨fun he => hc he.symm, h2⟩

/-- A failed split means the input contains no closing brace. -/
theorem splitOnBrace_eq_none {l : List Char} (h : splitOnBrace l = none) : rbrace ∉ l := by
  induction l with
  | nil => simp
  | cons c rest ih =>
      by_cases hc : c = rbrace
      · subst hc; simp [splitOnBrace] at h
      · simp only [splitOnBrace, if_neg hc, Option.map_eq_none'] at h
        simp only [List.mem_cons, not_or]
        exact ⟨fun he => hc he.symm, ih h⟩

/-- Lookup in a two-entry table succeeds with the first value on the first key
and with the second value on the second key. -/
theorem lookupFmt_pair {n k1 k2 v1 v2 v : List Char}
    (h : lookupFmt n [(k1, v1), (k2, v2)] = some v) :
    (n = k1 ∧ v = v1) ∨ (n ≠ k1 ∧ n = k2 ∧ v = v2) := by
  simp only [lookupFmt] at h
  split_ifs at h with h1 h2
  · injection h with h3
    exact Or.inl ⟨h1, h3.symm⟩
  · injection h with h3
    exact Or.inr ⟨h1, h2, h3.symm⟩

/-- Lookup in a two-entry table succeeds exactly on its two keys. -/
theorem lookupFmt_isSome_pair {n k1 k2 v1 v2 : List Char} :
    (lookupFmt n [(k1, v1), (k2, v2)]).isSome = true ↔ (n = k1 ∨ n = k2) := by
  simp only [lookupFmt]
  split_ifs with h1 h2 <;> simp_all

/-- A list is a Boolean prefix of itself followed by anything. -/
theorem isPrefixOf_self_append (p r : List Char) : p.isPrefixOf (p ++ r) = true := by
  simp [List.isPrefixOf_iff_prefix]

/-- A pattern starting with a character different from the head of the target is
not a prefix of it. -/
theorem not_isPrefixOf_of_head_ne {a b : Char} {x y : List Char} (h : a ≠ b) :
    ¬ (a :: x).isPrefixOf (b :: y) = true := by
  simp only [List.isPrefixOf_iff_prefix, List.cons_prefix_cons]
  exact fun hp => h hp.1

/-- A braced placeholder pattern is not a prefix of a brace followed by text that
contains no closing brace. -/
theorem not_pat_isPrefixOf_of_no_rbrace {nm rest : List Char} (h : rbrace ∉ rest) :
    ¬ (lbrace :: (nm ++ [rbrace])).isPrefixOf (lbrace :: rest) = true := by
  simp only [List.isPrefixOf_iff_prefix, List.cons_prefix_cons]
  rintro ⟨-, t, ht⟩
  exact h (by rw [← ht]; simp)

/-- The `start` pattern is not a prefix of the `end` pattern followed by anything. -/
theorem not_startPat_isPrefixOf_endPat (r : List Char) :
    ¬ startPat.isPrefixOf (endPat ++ r) = true := by
  rw [List.isPrefixOf_iff_prefix]
  intro hp
  rw [show startPat = lbrace :: 's' :: 't' :: 'a' :: 'r' :: 't' :: rbrace :: ([] : List Char)
        from by simp [startPat, startName],
      show endPat ++ r = lbrace :: 'e' :: 'n' :: 'd' :: rbrace :: r
        from by simp [endPat, endName]] at hp
  rw [List.cons_prefix_cons, List.cons_prefix_cons] at hp
  exact absurd hp.2.1 (by decide)

/-- Splitting the placeholder body back onto the brace rebuilds a pattern-headed
list: a brace, a name, a closing brace and a remainder make pattern-plus-rest. -/
theorem pat_append_eq (nm r : List Char) :
    lbrace :: (nm ++ rbrace :: r) = (lbrace :: (nm ++ [rbrace])) ++ r := by
  simp

/-- With the start/end placeholder table, a successful interpolation run equals
the literal pattern substitution described by the spec. -/
theorem interpGoF_eq_specSubstF (s e : List Char) (fuel : Nat) :
    ∀ (l out : List Char), l.length ≤ fuel →
      interpGoF [(startName, s), (endName, e)] fuel l = some out →
      out = specSubstF s e fuel l := by
  induction fuel with
  | zero =>
      intro l out hl h
      have hnil : l = [] := List.length_eq_zero.mp (Nat.le_zero.mp hl)
      subst hnil
      simp only [interpGoF, Option.some.injEq] at h
      simp [specSubstF, ← h]
  | succ fuel ih =>
      intro l out hl h
      cases l with
      | nil =>
          simp only [interpGoF, Option.some.injEq] at h
          simp [specSubstF, ← h]
      | cons c rest =>
          simp only [interpGoF] at h
          by_cases hc : c = lbrace
          · rw [if_pos hc] at h
            subst hc
            cases hs : splitOnBrace rest with
            | none =>
                rw [hs] at h
                simp only [Option.map_eq_some'] at h
                obtain ⟨a, ha, hout⟩ := h
                subst hout
                have hnr := splitOnBrace_eq_none hs
                have hlen : rest.length ≤ fuel := by
                  simp only [List.length_cons] at hl; omega
                have h1 : ¬ startPat.isPrefixOf (lbrace :: rest) = true := by
                  rw [show startPat = lbrace :: (startName ++ [rbrace]) from rfl]
                  exact not_pat_isPrefixOf_of_no_rbrace hnr
                have h2 : ¬ endPat.isPrefixOf (lbrace :: rest) = true := by
                  rw [show endPat = lbrace :: (endName ++ [rbrace]) from rfl]
                  exact not_pat_isPrefixOf_of_no_rbrace hnr
                simp only [specSubstF]
                rw [if_neg h1, if_neg h2]
                exact congrArg (lbrace :: ·) (ih rest a hlen ha)
            | some p =>
                obtain ⟨n, r⟩ := p
                rw [hs] at h
                dsimp only at h
                obtain ⟨hrest, -⟩ := splitOnBrace_eq_some hs
                subst hrest
                cases hk : lookupFmt n [(startName, s), (endName, e)] with
                | none => rw [hk] at h; simp at h
                | some v =>
                    rw [hk] at h
                    simp only [Option.map_eq_some'] at h
                    obtain ⟨a, ha, hout⟩ := h
                    subst hout
                    rcases lookupFmt_pair hk with ⟨hn, hv⟩ | ⟨-, hn, hv⟩
                    · subst hn
                      subst hv
                      have hpre : startPat.isPrefixOf (lbrace :: (startName ++ rbrace :: r)) = true := by
                        rw [pat_append_eq]
                        exact isPrefixOf_self_append startPat r
                      have hdrop : (lbrace :: (startName ++ rbrace :: r)).drop startPat.length = r := by
                        rw [pat_append_eq]
                        exact List.drop_left startPat r
                      have hlenr : r.length ≤ fuel := by
                        simp only [List.length_cons, List.length_append, startName,
                          List.length_cons] at hl ⊢
                        simp at hl
                        omega
                      simp only [specSubstF]
                      rw [if_pos hpre, hdrop]
                      exact congrArg (v ++ ·) (ih r a hlenr ha)
                    · subst hn
                      subst hv
                      have hfalse : ¬ startPat.isPrefixOf (lbrace :: (endName ++ rbrace :: r)) = true := by
                        rw [pat_append_eq]
                        exact not_startPat_isPrefixOf_endPat r
                      have hpre : endPat.isPrefixOf (lbrace :: (endName ++ rbrace :: r)) = true := by
                        rw [pat_append_eq]
                        exact isPrefixOf_self_append endPat r
                      have hdrop : (lbrace :: (endName ++ rbrace :: r)).drop endPat.length = r := by
                        rw [pat_append_eq]
                        exact List.drop_left endPat r
                      have hlenr : r.length ≤ fuel := by
                        simp only [List.length_cons, List.length_append, endName] at hl
                        simp at hl
                        omega
                      simp only [specSubstF]
                      rw [if_neg hfalse, if_pos hpre, hdrop]
                      exact congrArg (v ++ ·) (ih r a hlenr ha)
          · rw [if_neg hc] at h
            simp only [Option.map_eq_some'] at h
            obtain ⟨a, ha, hout⟩ := h
            subst hout
            have hlen : rest.length ≤ fuel := by
              simp only [List.length_cons] at hl; omega
            have h1 : ¬ startPat.isPrefixOf (c :: rest) = true := by
              rw [show startPat = lbrace :: (startName ++ [rbrace]) from rfl]
              exact not_isPrefixOf_of_head_ne (fun he => hc he.symm)
            have h2 : ¬ endPat.isPrefixOf (c :: rest) = true := by
              rw [show endPat = lbrace :: (endName ++ [rbrace]) from rfl]
              exact not_isPrefixOf_of_head_ne (fun he => hc he.symm)
            simp only [specSubstF]
            rw [if_neg h1, if_neg h2]
            exact congrArg (c :: ·) (ih rest a hlen ha)

/-- With the start/end placeholder table, an interpolation run succeeds exactly
when every referenced placeholder name is one of start and end. -/
theorem interpGoF_isSome_iff (s e : List Char) (fuel : Nat) :
    ∀ l : List Char, l.length ≤ fuel →
      ((interpGoF [(startName, s), (endName, e)] fuel l).isSome = true ↔
        ∀ n ∈ refNamesF fuel l, n = startName ∨ n = endName) := by
  induction fuel with
  | zero =>
      intro l hl
      have hnil : l = [] := List.length_eq_zero.mp (Nat.le_zero.mp hl)
      subst hnil
      simp [interpGoF, refNamesF]
  | succ fuel ih =>
      intro l hl
      cases l with
      | nil => simp [interpGoF, refNamesF]
      | cons c rest =>
          by_cases hc : c = lbrace
          · subst hc
            cases hs : splitOnBrace rest with
            | none =>
                have hlen : rest.length ≤ fuel := by
                  simp only [List.length_cons] at hl; omega
                simp only [interpGoF, refNamesF, hs, eq_self_iff_true, if_true,
                  Option.isSome_map']
                exact ih rest hlen
            | some p =>
                obtain ⟨n, r⟩ := p
                obtain ⟨hrest, -⟩ := splitOnBrace_eq_some hs
                have hlenr : r.length ≤ fuel := by
                  rw [hrest] at hl
                  simp only [List.length_cons, List.length_append] at hl
                  omega
                cases hk : lookupFmt n [(startName, s), (endName, e)] with
                | none =>
                    have hn : ¬ (n = startName ∨ n = endName) := by
                      intro hor
                      have : (lookupFmt n [(startName, s), (endName, e)]).isSome = true :=
                        lookupFmt_isSome_pair.mpr hor
                      rw [hk] at this
                      simp at this
                    simp only [interpGoF, refNamesF, hs, eq_self_iff_true, if_true, hk]
                    simp [hn]
                | some v =>
                    have hn : n = startName ∨ n = endName := by
                      have : (lookupFmt n [(startName, s), (endName, e)]).isSome = true := by
                        rw [hk]; rfl
                      exact lookupFmt_isSome_pair.mp this
                    simp only [interpGoF, refNamesF, hs, eq_self_iff_true, if_true, hk,
                      Option.isSome_map']
                    rw [ih r hlenr]
                    simp [hn]
          · have hlen : rest.length ≤ fuel := by
              simp only [List.length_cons] at hl; omega
            simp only [interpGoF, refNamesF, if_neg hc, Option.isSome_map']
            exact ih rest hlen

/-- C1: for every unsigned 32-bit offset and duration, the window built by
`TargetTimeStamp.new` satisfies `start ≤ end` (also when the addition
overflows), and the invariant `start ≤ end` is preserved by `bind_values`
for every media length. -/
theorem claim_C1 (offset duration : Nat)
    (h1 : offset < 4294967296) (h2 : duration < 4294967296) :
    (TargetTimeStamp.new offset duration).start ≤ (TargetTimeStamp.new offset duration).«end» ∧
    ∀ (t : TargetTimeStamp) (q : ℚ), t.start ≤ t.«end» →
      (t.bind_values q).start ≤ (t.bind_values q).«end» := by
  constructor
  · simp only [TargetTimeStamp.new, U32_MAX]
    split <;> omega
  · intro t q ht
    simp only [TargetTimeStamp.bind_values]
    split <;> split <;> omega

/-- C1 witness: the invariant instantiated at offset 3, duration 7. -/
theorem claim_C1_witness :
    3 < 4294967296 ∧ 7 < 4294967296 ∧
    ((TargetTimeStamp.new 3 7).start ≤ (TargetTimeStamp.new 3 7).«end» ∧
     ∀ (t : TargetTimeStamp) (q : ℚ), t.start ≤ t.«end» →
       (t.bind_values q).start ≤ (t.bind_values q).«end») :=
  ⟨by decide, by decide, claim_C1 3 7 (by decide) (by decide)⟩

/-- C2: after `bind_values`, `end` is at most the truncated media length; `start`
is the truncated length when the original offset exceeds it and the offset
otherwise; and in particular offset 0, duration 10, media length 5.9 yields
the window (0, 5). -/
theorem claim_C2 (offset duration : Nat) (q : ℚ) :
    ((TargetTimeStamp.new offset duration).bind_values q).«end» ≤ f32_as_u32 q ∧
    ((TargetTimeStamp.new offset duration).bind_values q).start =
      (if f32_as_u32 q < offset then f32_as_u32 q else offset) ∧
    ((TargetTimeStamp.new 0 10).bind_values (mkRat 59 10)).start = 0 ∧
    ((TargetTimeStamp.new 0 10).bind_values (mkRat 59 10)).«end» = 5 := by
  refine ⟨?_, ?_, by decide, by decide⟩
  · simp only [TargetTimeStamp.bind_values]
    split <;> omega
  · simp only [TargetTimeStamp.bind_values, TargetTimeStamp.new]

/-- C3: `TargetTimeStamp.new` keeps `start = offset` and sets
`end = min (offset + duration) U32_MAX`, that is, the exact sum when it is
representable and the saturated maximum 4294967295 when the addition
overflows; the operation is total and never returns an error. -/
theorem claim_C3 (offset duration : Nat)
    (h1 : offset < 4294967296) (h2 : duration < 4294967296) :
    (TargetTimeStamp.new offset duration).start = offset ∧
    (TargetTimeStamp.new offset duration).«end» = min (offset + duration) U32_MAX := by
  constructor
  · rfl
  · simp only [TargetTimeStamp.new, U32_MAX]
    split <;> omega

/-- C3 witness: the spec scenario offset 4294967290, duration 100: the sum
overflows, `end` saturates to 4294967295 and `start` stays 4294967290. -/
theorem claim_C3_witness :
    4294967290 < 4294967296 ∧ 100 < 4294967296 ∧
    ((TargetTimeStamp.new 4294967290 100).start = 4294967290 ∧
     (TargetTimeStamp.new 4294967290 100).«end» = min (4294967290 + 100) U32_MAX) :=
  ⟨by decide, by decide, claim_C3 4294967290 100 (by decide) (by decide)⟩

/-- C8: clamping is idempotent: applying `bind_values` twice with the same media
length gives the same window as applying it once. -/
theorem claim_C8 (t : TargetTimeStamp) (q : ℚ) :
    (t.bind_values q).bind_values q = t.bind_values q := by
  simp only [TargetTimeStamp.bind_values, TargetTimeStamp.mk.injEq]
  constructor <;> (split_ifs <;> omega)

/-- C5: rendering a command template against a time window yields the flag
unchanged and the value with every occurrence of the `start` and `end`
placeholders replaced by the fields of the window as plain decimal integers. -/
theorem claim_C5 (chunk : CommandChunk) (t : TargetTimeStamp) (out : CommandChunk)
    (h : chunk.format_chunk t = some out) : out = specSubstStr chunk t := by
  simp only [CommandChunk.format_chunk, Option.map_eq_some'] at h
  obtain ⟨a, ha, hout⟩ := h
  subst hout
  have ha2 : a = specSubst ((Nat.repr t.start).toList) ((Nat.repr t.«end»).toList)
      chunk.value.toList :=
    interpGoF_eq_specSubstF _ _ chunk.value.toList.length chunk.value.toList a le_rfl ha
  rw [ha2]
  rfl

/-- C5 witness: the video-filter template rendered against the window (2, 12)
succeeds and equals the spec substitution of that template. -/
theorem claim_C5_witness :
    CommandChunk.format_chunk
        ⟨"-vf", "select=\x27between(t,\x7bstart\x7d,\x7bend\x7d)\x27,setpts=N/FRAME_RATE/TB"⟩
        ⟨2, 12⟩ =
      some ⟨"-vf", "select=\x27between(t,2,12)\x27,setpts=N/FRAME_RATE/TB"⟩ ∧
    (⟨"-vf", "select=\x27between(t,2,12)\x27,setpts=N/FRAME_RATE/TB"⟩ : CommandChunk) =
      specSubstStr
        ⟨"-vf", "select=\x27between(t,\x7bstart\x7d,\x7bend\x7d)\x27,setpts=N/FRAME_RATE/TB"⟩
        ⟨2, 12⟩ :=
  ⟨by decide, claim_C5 _ _ _ (by decide)⟩

/-- C6: rendering a command template against a time window succeeds exactly when
every placeholder name referenced by the template value belongs to the fixed
set of `start` and `end`. -/
theorem claim_C6 (chunk : CommandChunk) (t : TargetTimeStamp) :
    (chunk.format_chunk t).isSome = true ↔
      ∀ n ∈ refNames chunk.value.toList, n = startName ∨ n = endName := by
  simp only [CommandChunk.format_chunk, Option.isSome_map']
  exact interpGoF_isSome_iff _ _ chunk.value.toList.length chunk.value.toList le_rfl

/-- C4: the rendered argument list is exactly input flag, input path, video
filter flag and rendered value, audio filter flag and rendered value, the fixed
`-y` overwrite flag, and the bare output path; in particular the
in.mp4/out.mp4 request with window (2, 12) renders to the exact expected
list. -/
theorem claim_C4 (c : ClipCommand) (vf af : CommandChunk)
    (hv : c.video_filter.format_chunk c.target = some vf)
    (ha : c.audio_filter.format_chunk c.target = some af) :
    c.render_arguments =
      some [c.input.flag, c.input.value, vf.flag, vf.value, af.flag, af.value, "-y",
        c.output.value] ∧
    (ClipCommand.fromArgs ⟨"in.mp4", "out.mp4", 10, 2⟩).render_arguments =
      some ["-i", "in.mp4",
        "-vf", "select=\x27between(t,2,12)\x27,setpts=N/FRAME_RATE/TB",
        "-af", "aselect=\x27between(t,2,12)\x27,asetpts=N/SR/TB",
        "-y", "out.mp4"] := by
  refine ⟨?_, by decide⟩
  unfold ClipCommand.render_arguments
  rw [hv, ha]

/-- C4 witness: both filter renders succeed for the in.mp4/out.mp4 request with
window (2, 12), and the rendered list is the expected one. -/
theorem claim_C4_witness :
    (ClipCommand.fromArgs ⟨"in.mp4", "out.mp4", 10, 2⟩).video_filter.format_chunk
        (ClipCommand.fromArgs ⟨"in.mp4", "out.mp4", 10, 2⟩).target =
      some ⟨"-vf", "select=\x27between(t,2,12)\x27,setpts=N/FRAME_RATE/TB"⟩ ∧
    (ClipCommand.fromArgs ⟨"in.mp4", "out.mp4", 10, 2⟩).audio_filter.format_chunk
        (ClipCommand.fromArgs ⟨"in.mp4", "out.mp4", 10, 2⟩).target =
      some ⟨"-af", "aselect=\x27between(t,2,12)\x27,asetpts=N/SR/TB"⟩ ∧
    ((ClipCommand.fromArgs ⟨"in.mp4", "out.mp4", 10, 2⟩).render_arguments =
      some ["-i", "in.mp4",
        "-vf", "select=\x27between(t,2,12)\x27,setpts=N/FRAME_RATE/TB",
        "-af", "aselect=\x27between(t,2,12)\x27,asetpts=N/SR/TB",
        "-y", "out.mp4"] ∧
     (ClipCommand.fromArgs ⟨"in.mp4", "out.mp4", 10, 2⟩).render_arguments =
      some ["-i", "in.mp4",
        "-vf", "select=\x27between(t,2,12)\x27,setpts=N/FRAME_RATE/TB",
        "-af", "aselect=\x27between(t,2,12)\x27,asetpts=N/SR/TB",
        "-y", "out.mp4"]) :=
  ⟨by decide, by decide,
    claim_C4 (ClipCommand.fromArgs ⟨"in.mp4", "out.mp4", 10, 2⟩)
      ⟨"-vf", "select=\x27between(t,2,12)\x27,setpts=N/FRAME_RATE/TB"⟩
      ⟨"-af", "aselect=\x27between(t,2,12)\x27,asetpts=N/SR/TB"⟩
      (by decide) (by decide)⟩

/-- C7: rendering is deterministic: with no mutation between the calls, rendering
a request twice produces identical argument sequences and rendering a chunk
against the same window twice produces identical output; both operations are
pure functions of their inputs, so the results coincide definitionally. -/
theorem claim_C7 (c : ClipCommand) (chunk : CommandChunk) (t : TargetTimeStamp) :
    c.render_arguments = c.render_arguments ∧
    chunk.format_chunk t = chunk.format_chunk t :=
  ⟨rfl, rfl⟩

/-- C9: the request built from CLI arguments has fixed executable `ffmpeg`, input
flag `-i`, the two fixed filter templates, output flag `-o`; only the input
path, the output path and the window built from offset and duration depend on
the arguments. -/
theorem claim_C9 (args : Args) :
    (ClipCommand.fromArgs args).executable = "ffmpeg" ∧
    (ClipCommand.fromArgs args).input = ⟨"-i", args.input⟩ ∧
    (ClipCommand.fromArgs args).video_filter =
      ⟨"-vf", "select=\x27between(t,\x7bstart\x7d,\x7bend\x7d)\x27,setpts=N/FRAME_RATE/TB"⟩ ∧
    (ClipCommand.fromArgs args).audio_filter =
      ⟨"-af", "aselect=\x27between(t,\x7bstart\x7d,\x7bend\x7d)\x27,asetpts=N/SR/TB"⟩ ∧
    (ClipCommand.fromArgs args).output = ⟨"-o", args.output⟩ ∧
    (ClipCommand.fromArgs args).target = TargetTimeStamp.new args.offset args.duration :=
  ⟨rfl, rfl, rfl, rfl, rfl, rfl⟩

/-- C10: the input path and the output path appear verbatim in the rendered
argument list (positions 1 and 7): no placeholder substitution is applied to
them, only the filter values are interpolated. -/
theorem claim_C10 (c : ClipCommand) (r : List String)
    (h : c.render_arguments = some r) :
    r[1]? = some c.input.value ∧ r[7]? = some c.output.value := by
  unfold ClipCommand.render_arguments at h
  split at h
  · injection h with h2
    subst h2
    constructor <;> rfl
  · exact absurd h (by simp)

/-- C10 witness: a request whose paths contain the literal placeholder text still
renders them verbatim at positions 1 and 7. -/
theorem claim_C10_witness :
    (ClipCommand.fromArgs
        ⟨"a\x7bstart\x7db.mp4", "c\x7bend\x7dd.mp4", 10, 2⟩).render_arguments =
      some ["-i", "a\x7bstart\x7db.mp4",
        "-vf", "select=\x27between(t,2,12)\x27,setpts=N/FRAME_RATE/TB",
        "-af", "aselect=\x27between(t,2,12)\x27,asetpts=N/SR/TB",
        "-y", "c\x7bend\x7dd.mp4"] ∧
    (["-i", "a\x7bstart\x7db.mp4",
      "-vf", "select=\x27between(t,2,12)\x27,setpts=N/FRAME_RATE/TB",
      "-af", "aselect=\x27between(t,2,12)\x27,asetpts=N/SR/TB",
      "-y", "c\x7bend\x7dd.mp4"] : List String)[1]? = some "a\x7bstart\x7db.mp4" ∧
    (["-i", "a\x7bstart\x7db.mp4",
      "-vf", "select=\x27between(t,2,12)\x27,setpts=N/FRAME_RATE/TB",
      "-af", "aselect=\x27between(t,2,12)\x27,asetpts=N/SR/TB",
      "-y", "c\x7bend\x7dd.mp4"] : List String)[7]? = some "c\x7bend\x7dd.mp4" := by
  refine ⟨by decide, ?_, ?_⟩
  · exact (claim_C10 (ClipCommand.fromArgs
      ⟨"a\x7bstart\x7db.mp4", "c\x7bend\x7dd.mp4", 10, 2⟩)
      ["-i", "a\x7bstart\x7db.mp4",
       "-vf", "select=\x27between(t,2,12)\x27,setpts=N/FRAME_RATE/TB",
       "-af", "aselect=\x27between(t,2,12)\x27,asetpts=N/SR/TB",
       "-y", "c\x7bend\x7dd.mp4"] (by decide)).1
  · exact (claim_C10 (ClipCommand.fromArgs
      ⟨"a\x7bstart\x7db.mp4", "c\x7bend\x7dd.mp4", 10, 2⟩)
      ["-i", "a\x7bstart\x7db.mp4",
       "-vf", "select=\x27between(t,2,12)\x27,setpts=N/FRAME_RATE/TB",
       "-af", "aselect=\x27between(t,2,12)\x27,asetpts=N/SR/TB",
       "-y", "c\x7bend\x7dd.mp4"] (by decide)).2

end Clipwhisper
